import Mathlib

/-!
Verification of the GPU index aggregator and oracle publisher.

The definitions below are a shallow embedding of the repository code:
float prices are modelled as rationals, with an absent or NaN value
modelled as the value none of Option.  Each definition cites the source
file and line range it embeds.
-/

set_option maxHeartbeats 1000000

namespace GpuBot

/-- One row of provider_averages.csv as consumed by gpu_index_calculator.py:
a provider name and its AvgNormalizedPrice column, where none models NaN. -/
structure Row where
  provider : String
  avgNormalizedPrice : Option ℚ
deriving DecidableEq

/-- One entry of the hyperscalers table of gpu_index_calculator.py lines 94 to 123:
weight percent, percent of buyers getting the discount, discount percent, and the
two static fallback prices. -/
structure HyperData where
  name : String
  weight : ℚ
  buyersGettingDiscount : ℚ
  discount : ℚ
  website_price : Option ℚ
  research_price : Option ℚ
deriving DecidableEq

/-- The hyperscalers table of gpu_index_calculator.py lines 94 to 123. -/
def hyperscalers : List HyperData :=
  [⟨"Amazon Web Services", 18.28, 100, 44, none, none⟩,
   ⟨"Microsoft Azure", 23.54, 65, 65, some 18.8, some 6.2⟩,
   ⟨"Google Cloud", 10.28, 65, 65, some 10.0, some 4.0⟩,
   ⟨"CoreWeave", 3.74, 80, 50, some 6.155, some 3.0⟩]

/-- The provider_weights table of gpu_index_calculator.py lines 49 to 91. -/
def provider_weights : List (String × ℚ) :=
  [("Voltage Park", 7.09), ("VoltagePark", 7.09), ("Nebius", 5.01),
   ("ShaktiCloud", 3.87), ("Shakti Cloud", 3.87), ("TaigaCloud", 3.75),
   ("Lambda Labs", 4.00), ("Crusoe", 1.60), ("HyperStack", 1.42),
   ("FluidStack", 1.40), ("Ori", 1.31), ("ORI", 1.31), ("Scaleway", 0.50),
   ("OVHcloud", 0.52), ("OVH Cloud", 0.52), ("GMICloud", 0.54),
   ("GMI Cloud", 0.54), ("Leaseweb", 0.40), ("Gcore", 0.37),
   ("HydraHost", 0.37), ("Neysa.ai", 0.28), ("Fal.AI", 0.30),
   ("Baseten", 0.26), ("EdgeVana", 0.21), ("Replicate", 0.19),
   ("AceCloud", 0.19), ("Ace Cloud", 0.19), ("Massed Compute", 0.19),
   ("Civo", 0.12), ("GPU-Mart", 0.11), ("Atlantic.Net", 0.09),
   ("Vast.ai", 0.07), ("RunPod", 0.07), ("Hostkey", 0.03),
   ("CUDO Compute", 0.04), ("DataCrunch", 0.04), ("LeaderGPU", 0.06),
   ("AtlasCloud", 0.06), ("Qubrid", 0.02), ("Koyeb", 0.02),
   ("JarvisLabs", 0.0035)]

/-- Drop the none entries of a list of optional rationals, as Series.dropna does. -/
def dropNone (l : List (Option ℚ)) : List ℚ := l.filterMap id

/-- Insert a rational into an ascending list, keeping it ascending. -/
def insertAsc (x : ℚ) : List ℚ → List ℚ
  | [] => [x]
  | y :: ys => if x ≤ y then x :: y :: ys else y :: insertAsc x ys

/-- Sort a list of rationals ascending (model of the sort performed inside
Series.quantile). -/
def sortAsc (l : List ℚ) : List ℚ := l.foldr insertAsc []

/-- Linear-interpolation quantile of an ascending list, the default
interpolation of pandas Series.quantile used at gpu_index_calculator.py
lines 26 to 27.  The empty case is guarded at every call site. -/
def quantileSorted (xs : List ℚ) (q : ℚ) : ℚ :=
  match xs with
  | [] => 0
  | _ =>
    let pos := q * ((xs.length : ℚ) - 1)
    let i := (Int.floor pos).toNat
    let xi := xs.getD i 0
    let xj := xs.getD (i + 1) xi
    xi + (pos - ((Int.floor pos : ℤ) : ℚ)) * (xj - xi)

/-- Quantile of an arbitrary list of rationals. -/
def quantileOf (l : List ℚ) (q : ℚ) : ℚ := quantileSorted (sortAsc l) q

/-- Lower IQR bound of filter_outliers, gpu_index_calculator.py line 29. -/
def iqrLowerBound (m : ℚ) (ps : List ℚ) : ℚ :=
  quantileOf ps (1/4) - m * (quantileOf ps (3/4) - quantileOf ps (1/4))

/-- Upper IQR bound of filter_outliers, gpu_index_calculator.py line 30. -/
def iqrUpperBound (m : ℚ) (ps : List ℚ) : ℚ :=
  quantileOf ps (3/4) + m * (quantileOf ps (3/4) - quantileOf ps (1/4))

/-- Outlier test of gpu_index_calculator.py line 40: a NaN price is never an
outlier because both comparisons with NaN are false. -/
def isOutRow (lo hi : ℚ) (r : Row) : Bool :=
  match r.avgNormalizedPrice with
  | none => false
  | some p => decide (p < lo) || decide (hi < p)

/-- filter_outliers of gpu_index_calculator.py lines 10 to 46 with the iqr
method, returning the kept rows and the names of the excluded providers.
When every price is NaN the quantiles are NaN, every comparison with the NaN
bounds is false, and no row is excluded; that case is the first branch. -/
def filter_outliers (table : List Row) (m : ℚ) : List Row × List String :=
  let ps := dropNone (table.map (fun r => r.avgNormalizedPrice))
  if ps.isEmpty then (table, [])
  else
    let lo := iqrLowerBound m ps
    let hi := iqrUpperBound m ps
    (table.filter (fun r => !(isOutRow lo hi r)),
     (table.filter (isOutRow lo hi)).map (fun r => r.provider))

/-- Membership of a provider name in the hyperscaler table,
gpu_index_calculator.py lines 129 and 132 to 133. -/
def isHyper (hypers : List HyperData) (name : String) : Bool :=
  hypers.any (fun d => d.name == name)

/-- The module-level outlier filtering of gpu_index_calculator.py lines
125 to 154: split off the hyperscaler rows, filter the rest with the iqr
method and multiplier 2.5, and put the hyperscaler rows back in front. -/
def pipelineFilter (hypers : List HyperData) (t : List Row) : List Row :=
  let nonH := t.filter (fun r => !(isHyper hypers r.provider))
  let hypR := t.filter (fun r => isHyper hypers r.provider)
  if nonH.isEmpty then t else hypR ++ (filter_outliers nonH (5/2)).1

/-- First row of the table carrying the given provider name,
gpu_index_calculator.py line 177 with iloc[0] at line 180. -/
def findRow (table : List Row) (name : String) : Option Row :=
  table.find? (fun r => r.provider == name)

/-- The fallback hierarchy over the measured CSV price of
gpu_index_calculator.py lines 185 to 199: keep the measured price unless it
is NaN, else website_price, else research_price, else nothing. -/
def resolveBase (d : HyperData) (raw : Option ℚ) : Option ℚ :=
  match raw with
  | some p => some p
  | none =>
    match d.website_price with
    | some w => some w
    | none => d.research_price

/-- Row lookup composed with the price fallback hierarchy: the price a
hyperscaler entry actually uses, or none when the provider has no row in the
table or no price resolves (lines 177 to 199). -/
def rowGatedChain (table : List Row) (d : HyperData) : Option ℚ :=
  match findRow table d.name with
  | none => none
  | some r => resolveBase d r.avgNormalizedPrice

/-- The six accumulators of calculate_weighted_index,
gpu_index_calculator.py lines 159 to 166. -/
structure CalcAcc where
  totalS : ℚ
  totalW : ℚ
  hypS : ℚ
  hypW : ℚ
  nonS : ℚ
  nonW : ℚ
deriving DecidableEq

/-- All six accumulators start at zero. -/
def initAcc : CalcAcc := ⟨0, 0, 0, 0, 0, 0⟩

/-- One iteration of the hyperscaler loop of gpu_index_calculator.py lines
175 to 224: a provider with no row, or with no resolvable price, is skipped
and adds nothing; otherwise the two buyer cohorts are blended and both the
total and the hyperscaler accumulators advance.  The NaN guard at line 207
can never fire over the rationals and is therefore omitted. -/
def hyperStep (table : List Row) (acc : CalcAcc) (d : HyperData) : CalcAcc :=
  match findRow table d.name with
  | none => acc
  | some r =>
    match resolveBase d r.avgNormalizedPrice with
    | none => acc
    | some base =>
      let bdp := d.buyersGettingDiscount / 100
      let dp := d.discount / 100
      let discounted := d.weight * bdp * (1 - dp) * base
      let nondisc := (d.weight - d.weight * bdp) * base
      let eff := discounted + nondisc
      ⟨acc.totalS + eff, acc.totalW + d.weight,
       acc.hypS + eff, acc.hypW + d.weight, acc.nonS, acc.nonW⟩

/-- Weight lookup with default zero, gpu_index_calculator.py line 238. -/
def lookupWeight (ws : List (String × ℚ)) (name : String) : ℚ :=
  match ws.find? (fun p => p.1 == name) with
  | some p => p.2
  | none => 0

/-- One iteration of the other-providers loop of gpu_index_calculator.py
lines 230 to 259: hyperscaler rows are skipped, zero-weight rows are
skipped, NaN prices are skipped, and otherwise both the total and the
non-hyperscaler accumulators advance. -/
def nonHyperStep (hypers : List HyperData) (ws : List (String × ℚ))
    (acc : CalcAcc) (r : Row) : CalcAcc :=
  if isHyper hypers r.provider then acc
  else
    if 0 < lookupWeight ws r.provider then
      match r.avgNormalizedPrice with
      | none => acc
      | some p =>
        ⟨acc.totalS + lookupWeight ws r.provider * p,
         acc.totalW + lookupWeight ws r.provider,
         acc.hypS, acc.hypW,
         acc.nonS + lookupWeight ws r.provider * p,
         acc.nonW + lookupWeight ws r.provider⟩
    else acc

/-- Both loops of calculate_weighted_index run over the already filtered
table: first the hyperscaler loop, then the row loop. -/
def runCalc (hypers : List HyperData) (ws : List (String × ℚ))
    (table : List Row) : CalcAcc :=
  table.foldl (nonHyperStep hypers ws) (hypers.foldl (hyperStep table) initAcc)

/-- The three index prices and the three weights returned by
calculate_weighted_index, gpu_index_calculator.py lines 281 to 328. -/
structure CalcResult where
  full : ℚ
  hypOnly : ℚ
  nonOnly : ℚ
  totalW : ℚ
  hypW : ℚ
  nonW : ℚ
deriving DecidableEq

/-- calculate_weighted_index of gpu_index_calculator.py lines 158 to 328:
each index is the weighted sum over its weight, or zero when the weight
used is zero (lines 281 to 294). -/
def calculate_weighted_index (hypers : List HyperData)
    (ws : List (String × ℚ)) (table : List Row) : CalcResult :=
  ⟨if 0 < (runCalc hypers ws table).totalW
     then (runCalc hypers ws table).totalS / (runCalc hypers ws table).totalW else 0,
   if 0 < (runCalc hypers ws table).hypW
     then (runCalc hypers ws table).hypS / (runCalc hypers ws table).hypW else 0,
   if 0 < (runCalc hypers ws table).nonW
     then (runCalc hypers ws table).nonS / (runCalc hypers ws table).nonW else 0,
   (runCalc hypers ws table).totalW,
   (runCalc hypers ws table).hypW,
   (runCalc hypers ws table).nonW⟩

/-- The pair a hyperscaler entry adds to the hyperscaler accumulators
(weighted price, weight): the amounts added at lines 211 to 215, or zero
when the entry is skipped. -/
def hyperContribution (table : List Row) (d : HyperData) : ℚ × ℚ :=
  match findRow table d.name with
  | none => (0, 0)
  | some r =>
    match resolveBase d r.avgNormalizedPrice with
    | none => (0, 0)
    | some base =>
      (d.weight * (d.buyersGettingDiscount / 100) * (1 - d.discount / 100) * base
        + (d.weight - d.weight * (d.buyersGettingDiscount / 100)) * base,
       d.weight)

/-- The combined discount factor of the two buyer cohorts: the blended
contribution at lines 202 to 204 equals weight times this factor times the
base price. -/
def effFactor (d : HyperData) : ℚ :=
  1 - (d.buyersGettingDiscount / 100) * (d.discount / 100)

/-- The hyperscaler entries that contribute this run, each as a
(weight, effective price) pair. -/
def hyperContribs (table : List Row) (hypers : List HyperData) : List (ℚ × ℚ) :=
  hypers.filterMap (fun d =>
    (rowGatedChain table d).map (fun b => (d.weight, effFactor d * b)))

/-- The body of one step of the other-providers loop as an optional
(weight, price) contribution. -/
def nonContribOf (hypers : List HyperData) (ws : List (String × ℚ))
    (r : Row) : Option (ℚ × ℚ) :=
  if isHyper hypers r.provider then none
  else
    if 0 < lookupWeight ws r.provider then
      r.avgNormalizedPrice.map (fun p => (lookupWeight ws r.provider, p))
    else none

/-- The non-hyperscaler rows that contribute this run, each as a
(weight, price) pair. -/
def nonHyperContribs (hypers : List HyperData) (ws : List (String × ℚ))
    (table : List Row) : List (ℚ × ℚ) :=
  table.filterMap (nonContribOf hypers ws)

/-- Sum of the weights of a contribution list. -/
def wSum (l : List (ℚ × ℚ)) : ℚ := (l.map (fun pr => pr.1)).sum

/-- Sum of weight times price of a contribution list. -/
def weSum (l : List (ℚ × ℚ)) : ℚ := (l.map (fun pr => pr.1 * pr.2)).sum

/-!  The historical consistency guard of gpu_index_calculator.py lines
330 to 394 and 463 to 509.  A history record holds the three prices of one
run plus its source tag; the timestamp column plays no role in any claim
and is omitted.  A price of none models NaN. -/

/-- One row of gpu_index_history.csv, lines 330 to 337. -/
structure HistRec where
  full : Option ℚ
  hyp : Option ℚ
  non : Option ℚ
  source : String
deriving DecidableEq

/-- One invocation of calculate_weighted_index as seen by the guard: the
triple of prices it returns. -/
structure RunOut where
  full : Option ℚ
  hyp : Option ℚ
  non : Option ℚ
deriving DecidableEq

/-- The validity test of line 471 and line 497:
full_price is None or pd.isna(full_price) or full_price == 0. -/
def invalidFull (p : Option ℚ) : Bool :=
  match p with
  | none => true
  | some v => decide (v = 0)

/-- The acceptance test of lines 474 and 488 for a rerun result:
full_price2 is truthy and not NaN, hence a non-zero rational. -/
def validRerun (p : Option ℚ) : Bool :=
  match p with
  | none => false
  | some v => decide (v ≠ 0)

/-- append_price_history of lines 356 to 367: one record is appended at the
end of the history; nothing else changes. -/
def append_price_history (hist : List HistRec) (r : HistRec) : List HistRec :=
  hist ++ [r]

/-- The last n elements of a list: DataFrame.tail(n) at line 353, also the
slice logs[-100:] of push_to_contract.py line 421. -/
def lastN {α : Type} (n : ℕ) (l : List α) : List α := l.drop (l.length - n)

/-- load_price_history of lines 339 to 354: the whole history, or its last
n rows when n is given. -/
def load_price_history (n : Option ℕ) (hist : List HistRec) : List HistRec :=
  match n with
  | none => hist
  | some k => lastN k hist

/-- get_last_price of lines 369 to 376: the last non-NaN full index price. -/
def get_last_price (hist : List HistRec) : Option ℚ :=
  (dropNone (hist.map (fun r => r.full))).getLast?

/-- Mean of a list of rationals, or none when it is empty: the guarded
dropna().mean() at lines 383 to 385. -/
def meanQ (l : List ℚ) : Option ℚ :=
  match l with
  | [] => none
  | _ => some (l.sum / (l.length : ℚ))

/-- average_last_n_prices of lines 378 to 386: take the last n history
rows, and per column return the mean of the non-NaN values among them,
or none when that column has no value there. -/
def average_last_n_prices (n : ℕ) (hist : List HistRec) :
    Option ℚ × Option ℚ × Option ℚ :=
  let h := lastN n hist
  if h.isEmpty then (none, none, none)
  else
    (meanQ (dropNone (h.map (fun r => r.full))),
     meanQ (dropNone (h.map (fun r => r.hyp))),
     meanQ (dropNone (h.map (fun r => r.non))))

/-- significant_change of lines 388 to 394 at the call sites, where old is
never None: old equal to zero is never significant, a NaN new price is
never significant because the comparison of NaN with the threshold is
false, and otherwise the test is abs(new - old) / old at or above the
threshold. -/
def significant_change (new : Option ℚ) (old : ℚ) (threshold : ℚ) : Bool :=
  if old = 0 then false
  else
    match new with
    | none => false
    | some n => decide (threshold ≤ |n - old| / old)

/-- Lines 471 to 481 of the main block: when the first pass is invalid an
immediate recovery rerun happens; a valid non-zero rerun is adopted with
source rerun; the triple carries the adopted run, the source so far, and
how many aggregator invocations happened. -/
def recoveryStage (runs : ℕ → RunOut) : RunOut × String × ℕ :=
  if invalidFull (runs 0).full then
    if validRerun (runs 1).full then (runs 1, "rerun", 2)
    else (runs 0, "calculated", 2)
  else (runs 0, "calculated", 1)

/-- Lines 483 to 494 of the main block: when a stored price exists and the
current full price moved by at least the threshold, one confirmatory rerun
happens and is adopted when valid. -/
def confirmStage (runs : ℕ → RunOut) (last : Option ℚ)
    (s : RunOut × String × ℕ) : RunOut × String × ℕ :=
  match last with
  | none => s
  | some lp =>
    if significant_change s.1.full lp (1/2) then
      if validRerun (runs s.2.2).full then (runs s.2.2, "rerun", s.2.2 + 1)
      else (s.1, s.2.1, s.2.2 + 1)
    else s

/-- Lines 496 to 506 of the main block: when the full price is still
invalid, the trailing averages replace the prices column-wise when the
full average exists, with source fallback_avg; otherwise the current
values are kept with the source unchanged. -/
def fallbackStage (hist : List HistRec) (cur : RunOut) (src : String) :
    RunOut × String :=
  if invalidFull cur.full then
    match average_last_n_prices 10 hist with
    | (some a, ah, an) =>
      (⟨some a, ah.orElse (fun _ => cur.hyp), an.orElse (fun _ => cur.non)⟩,
       "fallback_avg")
    | (none, _, _) => (cur, src)
  else (cur, src)

/-- Result of one guard run: the record that line 508 appends, and how many
times calculate_weighted_index was invoked. -/
structure GuardOut where
  record : HistRec
  invocations : ℕ
deriving DecidableEq

/-- The main block of gpu_index_calculator.py lines 463 to 509 as a
function of the stream of aggregator invocation results and the existing
history. -/
def guardRun (runs : ℕ → RunOut) (hist : List HistRec) : GuardOut :=
  let s1 := recoveryStage runs
  let s2 := confirmStage runs (get_last_price hist) s1
  let fin := fallbackStage hist s2.1 s2.2.1
  ⟨⟨fin.1.full, fin.1.hyp, fin.1.non, fin.2⟩, s2.2.2⟩

/-- Line 508: every guard run ends by appending exactly one record. -/
def guardAppend (runs : ℕ → RunOut) (hist : List HistRec) : List HistRec :=
  append_price_history hist (guardRun runs hist).record

/-!  The oracle publisher of push_to_contract.py.  The contract ABI at
lines 34 to 118 exposes exactly three state-changing entry points, which
the transaction type below mirrors; prices are scaled to fixed point with
int(price * 10 ** decimals) at line 284. -/

/-- The write transactions the MultiAssetOracle ABI admits,
push_to_contract.py lines 34 to 64. -/
inductive Tx where
  | registerAsset : String → ℤ → Tx
  | updatePrice : String → ℤ → Tx
  | batchUpdatePrices : List String → List ℤ → Tx
deriving DecidableEq

/-- Truncation of a rational toward zero, the behaviour of the Python int
conversion at line 284. -/
def ratTrunc (q : ℚ) : ℤ := q.num / (q.den : ℤ)

/-- int(price * 10 ** decimals) at push_to_contract.py line 284. -/
def scalePrice (decimals : ℕ) (p : ℚ) : ℤ := ratTrunc (p * 10 ^ decimals)

/-- Whether a transaction payload carries the given scaled value. -/
def txCarriesValue (t : Tx) (s : ℤ) : Bool :=
  match t with
  | Tx.registerAsset _ p => decide (p = s)
  | Tx.updatePrice _ p => decide (p = s)
  | Tx.batchUpdatePrices _ ps => ps.contains s

/-- The transactions batch_update_prices of push_to_contract.py lines 276
to 329 sends: exactly one call of _send_transaction at lines 301 to 304,
carrying the parallel asset-id and scaled-price arrays in the clear.  The
surrounding getPrice reads are eth_call reads, not transactions. -/
def batch_update_prices (decimals : ℕ) (prices : List (String × ℚ)) : List Tx :=
  [Tx.batchUpdatePrices (prices.map (fun pr => pr.1))
    (prices.map (fun pr => scalePrice decimals pr.2))]

/-- The validation loop of main, push_to_contract.py lines 602 to 609: the
run exits with code 1 when some price is at most zero; a price above 100
only prints a warning and the run continues. -/
def priceValidationFails (prices : List (String × ℚ)) : Bool :=
  prices.any (fun pr => decide (pr.2 ≤ 0))

/-- The transactions main sends after validation, push_to_contract.py
lines 602 to 629: none when validation failed, else the single batch
transaction over the unmodified prices. -/
def mainPublishTxs (decimals : ℕ) (prices : List (String × ℚ)) : List Tx :=
  if priceValidationFails prices then [] else batch_update_prices decimals prices

/-- One record of contract_update_log.json, push_to_contract.py lines 389
to 406, restricted to the fields the claims mention. -/
structure LogEntry where
  prices : List (String × ℚ)
  txHash : String
  blockNumber : ℕ
deriving DecidableEq

/-- log_update of push_to_contract.py lines 389 to 428: append one entry
and keep only the last 100. -/
def log_update (logs : List LogEntry) (e : LogEntry) : List LogEntry :=
  lastN 100 (logs ++ [e])

/-- Modelled from the spec: the ledger applies a batch transaction
atomically, so a confirmed batchUpdatePrices sets every listed asset and a
reverted one changes nothing.  The oracle contract itself is not part of
this repository; only its ABI appears in push_to_contract.py. -/
def applyBatch (st : String → ℤ) (ids : List String) (ps : List ℤ) :
    String → ℤ :=
  (ids.zip ps).foldl (fun s pr => fun a => if a = pr.1 then pr.2 else s a) st

/-- Outcome of the blockchain update block of main: ledger state, audit
log, and process exit code. -/
structure PublishOutcome where
  ledger : String → ℤ
  auditLog : List LogEntry
  exitCode : ℕ

/-- The try block of main, push_to_contract.py lines 624 to 646: on a
successful batch transaction log_update appends one entry and the process
exits 0; on any failure the except branch prints the error and exits 1
without touching the audit log, and the reverted transaction leaves the
ledger unchanged. -/
def executeUpdate (st : String → ℤ) (logs : List LogEntry) (decimals : ℕ)
    (prices : List (String × ℚ)) (txOk : Bool) (h : String) (bn : ℕ) :
    PublishOutcome :=
  if txOk then
    { ledger := applyBatch st (prices.map (fun pr => pr.1))
        (prices.map (fun pr => scalePrice decimals pr.2)),
      auditLog := log_update logs ⟨prices, h, bn⟩,
      exitCode := 0 }
  else
    { ledger := st, auditLog := logs, exitCode := 1 }

/-!  Formalisations of the claims under test, and concrete fixtures used by
counterexamples and witnesses. -/

/-- The sum of all configured weights: hyperscaler weights plus the
non-hyperscaler weight table. -/
def weightTableSum (hypers : List HyperData) (ws : List (String × ℚ)) : ℚ :=
  (hypers.map (fun d => d.weight)).sum + (ws.map (fun pr => pr.2)).sum

/-- The contributing entries of one aggregation run as (weight, effective
price) pairs: hyperscalers first, then the other providers, matching the two
loops of calculate_weighted_index. -/
def contribList (hypers : List HyperData) (ws : List (String × ℚ))
    (table : List Row) : List (ℚ × ℚ) :=
  hyperContribs table hypers ++ nonHyperContribs hypers ws table

/-- The raw sample prices of the contributing entries, before the discount
blend: the resolved base price of each contributing hyperscaler and the
measured price of each contributing non-hyperscaler row. -/
def contribSamplePrices (hypers : List HyperData) (ws : List (String × ℚ))
    (table : List Row) : List ℚ :=
  hypers.filterMap (fun d => rowGatedChain table d)
    ++ table.filterMap (fun r =>
        if isHyper hypers r.provider then none
        else if 0 < lookupWeight ws r.provider then r.avgNormalizedPrice
        else none)

/-- Claim C1 as stated: every publish sends at least a commit transaction
followed by a reveal, and no transaction before the reveal, in particular
the first one, carries the scaled price in the clear. -/
def claimC1 : Prop := ∀ (decimals : ℕ) (prices : List (String × ℚ)),
  prices ≠ [] →
  2 ≤ (batch_update_prices decimals prices).length ∧
  ∀ t ∈ (batch_update_prices decimals prices).take 1,
    ∀ pr ∈ prices, txCarriesValue t (scalePrice decimals pr.2) = false

/-- Claim C2 as stated: any price outside roughly 0.01 to 100 dollars per
hour makes the validation step fail hard before any transaction. -/
def claimC2 : Prop := ∀ prices : List (String × ℚ),
  (∃ pr ∈ prices, pr.2 < 1/100 ∨ 100 < pr.2) →
  priceValidationFails prices = true

/-- Claim C4 as stated: when every aggregator invocation yields an invalid
full price, an empty history leaves the result unset with nothing appended,
and a usable trailing average is adopted with source fallback_avg. -/
def claimC4 : Prop := ∀ (runs : ℕ → RunOut) (hist : List HistRec),
  (∀ n, invalidFull (runs n).full = true) →
  ((hist = [] → guardAppend runs hist = []) ∧
   (∀ a, (average_last_n_prices 10 hist).1 = some a →
     (guardRun runs hist).record.source = "fallback_avg"
     ∧ (guardRun runs hist).record.full = some a))

/-- The effective price the fallback chain of the claim C6 wording assigns
to a hyperscaler entry: the measured price when a row with a price exists,
otherwise the static website price, otherwise the research price, with no
gating on the row being present at all. -/
def claimChainPrice (table : List Row) (d : HyperData) : Option ℚ :=
  (((findRow table d.name).bind (fun r => r.avgNormalizedPrice)).orElse
    (fun _ => d.website_price)).orElse (fun _ => d.research_price)

/-- Claim C6 as stated: every hyperscaler entry contributes according to
the ungated fallback chain, and contributes zero weight exactly when no
price in the chain resolves. -/
def claimC6 : Prop := ∀ table : List Row, ∀ d ∈ hyperscalers,
  hyperContribution table d =
    match claimChainPrice table d with
    | none => ((0 : ℚ), (0 : ℚ))
    | some b =>
      (d.weight * (d.buyersGettingDiscount / 100) * (1 - d.discount / 100) * b
        + (d.weight - d.weight * (d.buyersGettingDiscount / 100)) * b,
       d.weight)

/-- Claim C7 as stated: a failed batch transaction leaves every ledger
price unchanged and appends exactly one failure entry to the audit log. -/
def claimC7 : Prop := ∀ (st : String → ℤ) (logs : List LogEntry)
  (decimals : ℕ) (prices : List (String × ℚ)) (h : String) (bn : ℕ),
  (executeUpdate st logs decimals prices false h bn).ledger = st
  ∧ (executeUpdate st logs decimals prices false h bn).auditLog.length
      = logs.length + 1

/-- Claim C8 as stated: for any weight table summing to at most 100 and any
non-empty contributing sample set, the full index lies between the least and
the greatest contributing sample price. -/
def claimC8 : Prop := ∀ (hypers : List HyperData) (ws : List (String × ℚ))
  (table : List Row),
  weightTableSum hypers ws ≤ 100 →
  contribSamplePrices hypers ws table ≠ [] →
  ∃ lo hi, lo ∈ contribSamplePrices hypers ws table
    ∧ hi ∈ contribSamplePrices hypers ws table
    ∧ (∀ x ∈ contribSamplePrices hypers ws table, lo ≤ x ∧ x ≤ hi)
    ∧ lo ≤ (calculate_weighted_index hypers ws table).full
    ∧ (calculate_weighted_index hypers ws table).full ≤ hi

/-- The Microsoft Azure entry of the hyperscalers table. -/
def azureEntry : HyperData := ⟨"Microsoft Azure", 23.54, 65, 65, some 18.8, some 6.2⟩

/-- Fixture: a run stream whose first result is valid. -/
def runsW : ℕ → RunOut :=
  fun n => if n = 0 then ⟨some 3, some 4, some 5⟩ else ⟨some 6, some 7, some 8⟩

/-- Fixture: a run stream that always returns a zero full price. -/
def runsZero : ℕ → RunOut := fun _ => ⟨some 0, some 0, some 0⟩

/-- Fixture: a run stream that always returns NaN prices. -/
def runsNaN : ℕ → RunOut := fun _ => ⟨none, none, none⟩

/-- Fixture: a one-record valid history. -/
def histW : List HistRec := [⟨some 2, some 3, some 4, "calculated"⟩]

/-- Fixture: a single hyperscaler whose whole buyer base gets a 50 percent
discount. -/
def cexHypers : List HyperData := [⟨"CW", 50, 100, 50, none, none⟩]

/-- Fixture: the one-row table for the C8 counterexample. -/
def cexTable : List Row := [⟨"CW", some 10⟩]

/-- Fixture: a hyperscaler configuration for witnesses. -/
def hypersW : List HyperData := [⟨"A", 10, 100, 50, none, none⟩]

/-- Fixture: a weight table for witnesses. -/
def wsW : List (String × ℚ) := [("B", 10)]

/-- Fixture: a two-row table for witnesses. -/
def tableW : List Row := [⟨"A", some 4⟩, ⟨"B", some 2⟩]

/-- Fixture: rows for the outlier-protection witness; CoreWeave is a
hyperscaler, the others carry weight in provider_weights. -/
def t1W : List Row :=
  [⟨"CoreWeave", some 2⟩, ⟨"RunPod", some 1⟩, ⟨"Vast.ai", some 1⟩,
   ⟨"Hostkey", some 1⟩, ⟨"Koyeb", some 1⟩]

/-- Fixture: the extreme non-hyperscaler row removed in the outlier
witness. -/
def sW : Row := ⟨"Qubrid", some 1000⟩

/-!  Helper lemmas. -/

/-- The rerun acceptance test is exactly the negation of the invalidity
test. -/
lemma validRerun_eq (p : Option ℚ) : validRerun p = !invalidFull p := by
  cases p with
  | none => rfl
  | some v => simp [validRerun, invalidFull, decide_not]

lemma wSum_nil : wSum [] = 0 := rfl

lemma weSum_nil : weSum [] = 0 := rfl

lemma wSum_cons (pr : ℚ × ℚ) (l : List (ℚ × ℚ)) :
    wSum (pr :: l) = pr.1 + wSum l := by
  simp [wSum]

lemma weSum_cons (pr : ℚ × ℚ) (l : List (ℚ × ℚ)) :
    weSum (pr :: l) = pr.1 * pr.2 + weSum l := by
  simp [weSum]

lemma wSum_append (l1 l2 : List (ℚ × ℚ)) :
    wSum (l1 ++ l2) = wSum l1 + wSum l2 := by
  simp [wSum]

lemma weSum_append (l1 l2 : List (ℚ × ℚ)) :
    weSum (l1 ++ l2) = weSum l1 + weSum l2 := by
  simp [weSum]

/-!  Claims C1 and C2: the publisher transaction shape and validation. -/

/-- Claim C1 counterexample: publishing one asset at price 3 produces a
single transaction, not a commit followed by a reveal; there is no
commit-reveal protocol in push_to_contract.py at all. -/
theorem C1_counterexample : ¬ claimC1 := by
  intro h
  have h2 := (h 0 [("a", 3)] (by simp)).1
  simp [batch_update_prices] at h2

/-- Claim C1 amended: every publish sends exactly one transaction, the
batchUpdatePrices call, and that transaction carries every scaled price in
the clear, so the price is disclosed by the first and only transaction. -/
theorem C1_single_plain_tx (decimals : ℕ) (prices : List (String × ℚ)) :
    (batch_update_prices decimals prices).length = 1
    ∧ ∀ t ∈ batch_update_prices decimals prices, ∀ pr ∈ prices,
        txCarriesValue t (scalePrice decimals pr.2) = true := by
  refine ⟨rfl, ?_⟩
  intro t ht pr hpr
  simp only [batch_update_prices, List.mem_singleton] at ht
  subst ht
  simp only [txCarriesValue]
  have hmem : scalePrice decimals pr.2
      ∈ prices.map (fun pr => scalePrice decimals pr.2) :=
    List.mem_map_of_mem _ hpr
  exact List.elem_eq_true_of_mem hmem

/-- Witness for the amended claim C1 at a concrete input. -/
theorem C1_plain_tx_witness :
    (batch_update_prices 0 [("a", (3 : ℚ))]).length = 1
    ∧ txCarriesValue (Tx.batchUpdatePrices ["a"] [scalePrice 0 3])
        (scalePrice 0 3) = true :=
  ⟨(C1_single_plain_tx 0 [("a", 3)]).1,
   (C1_single_plain_tx 0 [("a", 3)]).2 (Tx.batchUpdatePrices ["a"] [scalePrice 0 3])
     (List.mem_singleton.2 rfl) ("a", 3) (List.mem_singleton.2 rfl)⟩

/-- Claim C2 counterexample: a price of 200 dollars per hour is far outside
the claimed sane range, yet the validation loop of main accepts it, because
lines 608 to 609 only print a warning above 100. -/
theorem C2_counterexample : ¬ claimC2 := by
  intro h
  have h2 := h [("H100", 200)] ⟨("H100", 200), by simp, Or.inr (by norm_num)⟩
  simp [priceValidationFails] at h2
  norm_num at h2

/-- Claim C2 amended: the validation loop of main fails hard exactly when
some price is at most zero, in which case no transaction is sent; when it
passes, the single batch transaction carries the unmodified input prices,
so nothing is ever clamped. -/
theorem C2_validation (decimals : ℕ) (prices : List (String × ℚ)) :
    (priceValidationFails prices = true ↔ ∃ pr ∈ prices, pr.2 ≤ 0)
    ∧ (priceValidationFails prices = true → mainPublishTxs decimals prices = [])
    ∧ (priceValidationFails prices = false →
        mainPublishTxs decimals prices = batch_update_prices decimals prices) := by
  refine ⟨?_, fun h => by simp [mainPublishTxs, h], fun h => by simp [mainPublishTxs, h]⟩
  simp [priceValidationFails, List.any_eq_true]

/-- Witness for the amended claim C2 at a concrete input. -/
theorem C2_validation_witness :
    mainPublishTxs 18 [("H100_HOURLY", (-1 : ℚ))] = [] :=
  (C2_validation 18 [("H100_HOURLY", (-1 : ℚ))]).2.1 (by decide)

/-!  Claim C7: outcome of a failed batch publish. -/

/-- Claim C7 counterexample: a failed batch run leaves the ledger alone but
appends nothing to the audit log, because log_update is only called on the
success path of main (push_to_contract.py lines 627 to 629). -/
theorem C7_counterexample : ¬ claimC7 := by
  intro h
  have h2 := (h (fun _ => 0) [] 0 [] "" 0).2
  simp [executeUpdate] at h2

/-- Claim C7 amended: a failed batch transaction leaves the ledger, the
audit log and hence every asset price unchanged and exits with code 1; the
audit log gains its single entry, capped at the last 100, only on the
success path, which exits with code 0. -/
theorem C7_batch_failure_amended (st : String → ℤ) (logs : List LogEntry)
    (decimals : ℕ) (prices : List (String × ℚ)) (h : String) (bn : ℕ) :
    (executeUpdate st logs decimals prices false h bn).ledger = st
    ∧ (executeUpdate st logs decimals prices false h bn).auditLog = logs
    ∧ (executeUpdate st logs decimals prices false h bn).exitCode = 1
    ∧ (executeUpdate st logs decimals prices true h bn).auditLog
        = lastN 100 (logs ++ [⟨prices, h, bn⟩])
    ∧ (executeUpdate st logs decimals prices true h bn).exitCode = 0 :=
  ⟨rfl, rfl, rfl, rfl, rfl⟩

/-!  Claim C9: the history store is append-only. -/

/-- Claim C9: every terminal guard transition appends exactly one record,
leaving the prior records untouched in place, and bounded reads return a
suffix of at most the requested length. -/
theorem C9_append_only (runs : ℕ → RunOut) (hist : List HistRec) (n : ℕ) :
    guardAppend runs hist = hist ++ [(guardRun runs hist).record]
    ∧ (guardAppend runs hist).length = hist.length + 1
    ∧ (∃ k, load_price_history (some n) hist = hist.drop k)
    ∧ (load_price_history (some n) hist).length ≤ n
    ∧ load_price_history none hist = hist := by
  refine ⟨rfl, by simp [guardAppend, append_price_history], ⟨hist.length - n, rfl⟩, ?_, rfl⟩
  simp only [load_price_history, lastN, List.length_drop]
  omega

/-!  Claims C3 and C4: the historical consistency guard. -/

/-- With a valid non-zero first pass, the recovery stage keeps the first
result after a single invocation. -/
lemma recovery_valid (runs : ℕ → RunOut) (v : ℚ)
    (h0 : (runs 0).full = some v) (hv : v ≠ 0) :
    recoveryStage runs = (runs 0, "calculated", 1) := by
  have h1 : invalidFull (runs 0).full = false := by
    rw [h0]; simp [invalidFull, hv]
  simp [recoveryStage, h1]

/-- With every invocation invalid, the recovery stage keeps the first
result after two invocations. -/
lemma recovery_all_invalid (runs : ℕ → RunOut)
    (hinv : ∀ n, invalidFull (runs n).full = true) :
    recoveryStage runs = (runs 0, "calculated", 2) := by
  have h1 : validRerun (runs 1).full = false := by
    rw [validRerun_eq, hinv 1]; rfl
  simp [recoveryStage, hinv 0, h1]

/-- The composed form of one guard run, stated once so proofs can rewrite
stage by stage. -/
lemma guardRun_eq (runs : ℕ → RunOut) (hist : List HistRec) :
    guardRun runs hist =
      ⟨⟨(fallbackStage hist
            (confirmStage runs (get_last_price hist) (recoveryStage runs)).1
            (confirmStage runs (get_last_price hist) (recoveryStage runs)).2.1).1.full,
        (fallbackStage hist
            (confirmStage runs (get_last_price hist) (recoveryStage runs)).1
            (confirmStage runs (get_last_price hist) (recoveryStage runs)).2.1).1.hyp,
        (fallbackStage hist
            (confirmStage runs (get_last_price hist) (recoveryStage runs)).1
            (confirmStage runs (get_last_price hist) (recoveryStage runs)).2.1).1.non,
        (fallbackStage hist
            (confirmStage runs (get_last_price hist) (recoveryStage runs)).1
            (confirmStage runs (get_last_price hist) (recoveryStage runs)).2.1).2⟩,
       (confirmStage runs (get_last_price hist) (recoveryStage runs)).2.2⟩ := rfl

/-- Without a stored price the confirmation stage does nothing. -/
lemma confirm_none (runs : ℕ → RunOut) (s : RunOut × String × ℕ) :
    confirmStage runs none s = s := rfl

/-- Below the threshold the confirmation stage does nothing. -/
lemma confirm_notsig (runs : ℕ → RunOut) (lp : ℚ) (s : RunOut × String × ℕ)
    (hs : significant_change s.1.full lp (1/2) = false) :
    confirmStage runs (some lp) s = s := by
  dsimp only [confirmStage]
  rw [if_neg (by rw [hs]; exact Bool.false_ne_true)]

/-- At or above the threshold with a valid rerun, the confirmation stage
adopts the rerun with source rerun and one more invocation. -/
lemma confirm_sig_valid (runs : ℕ → RunOut) (lp : ℚ) (s : RunOut × String × ℕ)
    (hs : significant_change s.1.full lp (1/2) = true)
    (hvr : validRerun (runs s.2.2).full = true) :
    confirmStage runs (some lp) s = (runs s.2.2, "rerun", s.2.2 + 1) := by
  dsimp only [confirmStage]
  rw [if_pos hs, if_pos hvr]

/-- At or above the threshold with an invalid rerun, the confirmation stage
keeps the current result and source. -/
lemma confirm_sig_invalid (runs : ℕ → RunOut) (lp : ℚ) (s : RunOut × String × ℕ)
    (hs : significant_change s.1.full lp (1/2) = true)
    (hvr : validRerun (runs s.2.2).full = false) :
    confirmStage runs (some lp) s = (s.1, s.2.1, s.2.2 + 1) := by
  dsimp only [confirmStage]
  rw [if_pos hs, if_neg (by rw [hvr]; exact Bool.false_ne_true)]

/-- A valid current full price skips the fallback stage. -/
lemma fallback_of_valid (hist : List HistRec) (cur : RunOut) (src : String)
    (h : invalidFull cur.full = false) :
    fallbackStage hist cur src = (cur, src) := by
  unfold fallbackStage
  rw [h]
  simp

/-- An invalid current full price enters the fallback stage and adopts the
trailing averages when the full average exists. -/
lemma fallback_of_invalid (hist : List HistRec) (cur : RunOut) (src : String)
    (h : invalidFull cur.full = true) :
    fallbackStage hist cur src =
      match average_last_n_prices 10 hist with
      | (some a, ah, an) =>
        (⟨some a, ah.orElse (fun _ => cur.hyp), an.orElse (fun _ => cur.non)⟩,
         "fallback_avg")
      | (none, _, _) => (cur, src) := by
  unfold fallbackStage
  rw [h]
  simp

/-- When every further invocation is invalid, the confirmation stage never
changes the adopted result or source, only possibly the invocation count. -/
lemma confirm_keeps_of_invalid (runs : ℕ → RunOut) (last : Option ℚ)
    (cur : RunOut) (src : String) (k : ℕ)
    (hinv : ∀ n, invalidFull (runs n).full = true) :
    ∃ k2, confirmStage runs last (cur, src, k) = (cur, src, k2) := by
  cases last with
  | none => exact ⟨k, rfl⟩
  | some lp =>
    have h1 : validRerun (runs k).full = false := by
      rw [validRerun_eq, hinv k]; rfl
    by_cases hs : significant_change cur.full lp (1/2) = true
    · exact ⟨k + 1, confirm_sig_invalid runs lp (cur, src, k) hs h1⟩
    · exact ⟨k, confirm_notsig runs lp (cur, src, k)
        (Bool.eq_false_iff.2 hs)⟩

/-- When every invocation is invalid, the appended record is the trailing
average with source fallback_avg when the average exists, and the unchanged
first result with source calculated otherwise. -/
lemma guard_all_invalid_record (runs : ℕ → RunOut) (hist : List HistRec)
    (hinv : ∀ n, invalidFull (runs n).full = true) :
    (guardRun runs hist).record =
      match average_last_n_prices 10 hist with
      | (some a, ah, an) =>
        ⟨some a, ah.orElse (fun _ => (runs 0).hyp),
         an.orElse (fun _ => (runs 0).non), "fallback_avg"⟩
      | (none, _, _) =>
        ⟨(runs 0).full, (runs 0).hyp, (runs 0).non, "calculated"⟩ := by
  obtain ⟨k2, hconf⟩ :=
    confirm_keeps_of_invalid runs (get_last_price hist) (runs 0) "calculated" 2 hinv
  rw [guardRun_eq, recovery_all_invalid runs hinv, hconf,
    fallback_of_invalid hist (runs 0) "calculated" (hinv 0)]
  rcases havg : average_last_n_prices 10 hist with ⟨af, ah, an⟩
  cases af with
  | none => rfl
  | some a => rfl

/-- Claim C3: with a valid fresh computation, the guard accepts it with
source calculated and a single aggregator invocation when there is no prior
price or the move is below the threshold; at or above the threshold it
performs exactly one confirmatory re-invocation and accepts a finite
non-zero rerun with source rerun; the relative change is abs(new - old)
divided by old, with old equal to zero treated as no significant change;
and the stored comparison price is the full price of the latest history
record whenever that record has one. -/
theorem C3_guard_thresholds (runs : ℕ → RunOut) (hist : List HistRec) (v : ℚ)
    (h0 : (runs 0).full = some v) (hv : v ≠ 0) :
    (get_last_price hist = none →
      guardRun runs hist = ⟨⟨some v, (runs 0).hyp, (runs 0).non, "calculated"⟩, 1⟩)
    ∧ (∀ lp, get_last_price hist = some lp →
        significant_change (some v) lp (1/2) = false →
        guardRun runs hist = ⟨⟨some v, (runs 0).hyp, (runs 0).non, "calculated"⟩, 1⟩)
    ∧ (∀ lp w, get_last_price hist = some lp →
        significant_change (some v) lp (1/2) = true →
        (runs 1).full = some w → w ≠ 0 →
        guardRun runs hist = ⟨⟨some w, (runs 1).hyp, (runs 1).non, "rerun"⟩, 2⟩)
    ∧ (∀ n : ℚ, significant_change (some n) 0 (1/2) = false)
    ∧ (∀ n old : ℚ, old ≠ 0 →
        (significant_change (some n) old (1/2) = true ↔ 1/2 ≤ |n - old| / old))
    ∧ (∀ (h2 : List HistRec) (r : HistRec) (p : ℚ), r.full = some p →
        get_last_price (h2 ++ [r]) = some p) := by
  have hval : invalidFull (runs 0).full = false := by
    rw [h0]; simp [invalidFull, hv]
  have hrec := recovery_valid runs v h0 hv
  refine ⟨?_, ?_, ?_, ?_, ?_, ?_⟩
  · intro hl
    rw [guardRun_eq, hrec, hl, confirm_none]
    dsimp only
    rw [fallback_of_valid hist (runs 0) "calculated" hval, h0]
  · intro lp hl hs
    have hs0 : significant_change (runs 0).full lp (1/2) = false := by
      rw [h0]; exact hs
    rw [guardRun_eq, hrec, hl,
      confirm_notsig runs lp (runs 0, "calculated", 1) hs0]
    dsimp only
    rw [fallback_of_valid hist (runs 0) "calculated" hval, h0]
  · intro lp w hl hs h1 hw
    have hvw : validRerun (runs 1).full = true := by
      rw [h1]; simp [validRerun, hw]
    have hiw : invalidFull (runs 1).full = false := by
      rw [h1]; simp [invalidFull, hw]
    have hs0 : significant_change (runs 0).full lp (1/2) = true := by
      rw [h0]; exact hs
    rw [guardRun_eq, hrec, hl,
      confirm_sig_valid runs lp (runs 0, "calculated", 1) hs0 hvw]
    dsimp only
    rw [fallback_of_valid hist (runs 1) "rerun" hiw, h1]
  · intro n
    simp [significant_change]
  · intro n old hold
    simp [significant_change, hold]
  · intro h2 r p hp
    simp [get_last_price, dropNone, List.filterMap_append, hp]

/-- Witness for claim C3 at a concrete input: a valid first pass over an
empty history is accepted unchanged with one invocation. -/
theorem C3_guard_witness :
    guardRun runsW [] = ⟨⟨some 3, some 4, some 5, "calculated"⟩, 1⟩ := by
  have h := C3_guard_thresholds runsW [] 3 rfl (by norm_num)
  exact h.1 rfl

/-- Claim C4 counterexample: with an empty history and a first pass of
zero, the main block still appends a record, carrying the invalid zero
price with source calculated, rather than leaving the result unset and
reporting a failure; lines 505 to 509 keep the current value, append it,
and exit normally. -/
theorem C4_counterexample : ¬ claimC4 := by
  intro h
  have h2 := (h runsZero [] (fun n => by simp [runsZero, invalidFull])).1 rfl
  simp [guardAppend, append_price_history] at h2

/-- Claim C4 amended: when the full price is still invalid after the rerun
attempts, the guard adopts the trailing averages of the valid values among
the last min(10, N) history rows column-wise with source fallback_avg
whenever the full column has a valid value there, keeping the current value
for a column without one; when no full average exists, in particular on an
empty history, the invalid first-pass values are kept with source
calculated; in every case exactly one record is appended. -/
theorem C4_fallback_amended (runs : ℕ → RunOut) (hist : List HistRec)
    (hinv : ∀ n, invalidFull (runs n).full = true) :
    (∀ a, (average_last_n_prices 10 hist).1 = some a →
      (guardRun runs hist).record =
        ⟨some a,
         ((average_last_n_prices 10 hist).2.1).orElse (fun _ => (runs 0).hyp),
         ((average_last_n_prices 10 hist).2.2).orElse (fun _ => (runs 0).non),
         "fallback_avg"⟩)
    ∧ ((average_last_n_prices 10 hist).1 = none →
      (guardRun runs hist).record =
        ⟨(runs 0).full, (runs 0).hyp, (runs 0).non, "calculated"⟩)
    ∧ guardAppend runs hist = hist ++ [(guardRun runs hist).record]
    ∧ (lastN 10 hist).length = min 10 hist.length := by
  have hm := guard_all_invalid_record runs hist hinv
  rcases havg : average_last_n_prices 10 hist with ⟨af, ah, an⟩
  rw [havg] at hm
  refine ⟨?_, ?_, rfl, ?_⟩
  · intro a ha
    have ha2 : af = some a := ha
    rw [ha2] at hm
    exact hm
  · intro ha
    have ha2 : af = none := ha
    rw [ha2] at hm
    exact hm
  · simp only [lastN, List.length_drop]
    omega

/-- Witness for the amended claim C4 at a concrete input: invalid runs over
a one-record history adopt that record as the fallback average. -/
theorem C4_fallback_witness :
    (guardRun runsNaN histW).record = ⟨some 2, some 3, some 4, "fallback_avg"⟩ := by
  have havg : average_last_n_prices 10 histW = (some 2, some 3, some 4) := by
    norm_num [average_last_n_prices, histW, lastN, dropNone, meanQ,
      List.filterMap_cons, List.filterMap_nil]
  have h := (C4_fallback_amended runsNaN histW (fun n => rfl)).1 2 (by rw [havg])
  rw [havg] at h
  exact h

/-!  Characterisation of the aggregation run as sums over contribution
lists. -/

/-- A skipped hyperscaler entry changes no accumulator. -/
lemma hyperStep_none (table : List Row) (a : CalcAcc) (d : HyperData)
    (hg : rowGatedChain table d = none) : hyperStep table a d = a := by
  unfold rowGatedChain at hg
  cases hf : findRow table d.name with
  | none => simp [hyperStep, hf]
  | some r =>
    rw [hf] at hg
    have hg2 : resolveBase d r.avgNormalizedPrice = none := hg
    simp [hyperStep, hf, hg2]

/-- A contributing hyperscaler entry adds its weight and its blended
weighted price to the total and hyperscaler accumulators. -/
lemma hyperStep_some (table : List Row) (a : CalcAcc) (d : HyperData) (b : ℚ)
    (hg : rowGatedChain table d = some b) :
    hyperStep table a d =
      ⟨a.totalS + d.weight * (effFactor d * b), a.totalW + d.weight,
       a.hypS + d.weight * (effFactor d * b), a.hypW + d.weight,
       a.nonS, a.nonW⟩ := by
  unfold rowGatedChain at hg
  cases hf : findRow table d.name with
  | none => rw [hf] at hg; exact absurd hg (by simp)
  | some r =>
    rw [hf] at hg
    have hg2 : resolveBase d r.avgNormalizedPrice = some b := hg
    simp only [hyperStep, hf, hg2, effFactor]
    rw [CalcAcc.mk.injEq]
    refine ⟨by ring, rfl, by ring, rfl, rfl, rfl⟩

/-- A skipped row of the other-providers loop changes no accumulator. -/
lemma nonHyperStep_none (hypers : List HyperData) (ws : List (String × ℚ))
    (a : CalcAcc) (r : Row) (hg : nonContribOf hypers ws r = none) :
    nonHyperStep hypers ws a r = a := by
  unfold nonHyperStep
  unfold nonContribOf at hg
  cases h1 : isHyper hypers r.provider with
  | true => simp [h1]
  | false =>
    rw [h1] at hg
    simp only [Bool.false_eq_true, if_false] at hg ⊢
    by_cases h2 : 0 < lookupWeight ws r.provider
    · rw [if_pos h2] at hg ⊢
      cases hp : r.avgNormalizedPrice with
      | none => rfl
      | some q => rw [hp] at hg; simp at hg
    · rw [if_neg h2]

/-- A contributing row of the other-providers loop adds its weight and its
weighted price to the total and non-hyperscaler accumulators. -/
lemma nonHyperStep_some (hypers : List HyperData) (ws : List (String × ℚ))
    (a : CalcAcc) (r : Row) (w p : ℚ)
    (hg : nonContribOf hypers ws r = some (w, p)) :
    nonHyperStep hypers ws a r =
      ⟨a.totalS + w * p, a.totalW + w, a.hypS, a.hypW,
       a.nonS + w * p, a.nonW + w⟩ := by
  unfold nonHyperStep
  unfold nonContribOf at hg
  cases h1 : isHyper hypers r.provider with
  | true => rw [h1] at hg; simp at hg
  | false =>
    rw [h1] at hg
    simp only [Bool.false_eq_true, if_false] at hg ⊢
    by_cases h2 : 0 < lookupWeight ws r.provider
    · rw [if_pos h2] at hg ⊢
      cases hp : r.avgNormalizedPrice with
      | none => rw [hp] at hg; simp at hg
      | some q =>
        rw [hp] at hg
        simp at hg
        obtain ⟨hw, hq⟩ := hg
        subst hw
        subst hq
        rfl
    · rw [if_neg h2] at hg; simp at hg

/-- The hyperscaler loop in total adds the sums over the hyperscaler
contribution list. -/
lemma foldl_hyperStep (table : List Row) (hypers : List HyperData) (a : CalcAcc) :
    hypers.foldl (hyperStep table) a =
      ⟨a.totalS + weSum (hyperContribs table hypers),
       a.totalW + wSum (hyperContribs table hypers),
       a.hypS + weSum (hyperContribs table hypers),
       a.hypW + wSum (hyperContribs table hypers),
       a.nonS, a.nonW⟩ := by
  induction hypers generalizing a with
  | nil => simp [hyperContribs, weSum, wSum]
  | cons d ds ih =>
    rw [List.foldl_cons]
    cases hg : rowGatedChain table d with
    | none =>
      rw [hyperStep_none table a d hg, ih]
      simp [hyperContribs, List.filterMap_cons, hg]
    | some b =>
      rw [hyperStep_some table a d b hg, ih]
      have hc : hyperContribs table (d :: ds)
          = (d.weight, effFactor d * b) :: hyperContribs table ds := by
        simp [hyperContribs, List.filterMap_cons, hg]
      rw [hc, wSum_cons, weSum_cons, CalcAcc.mk.injEq]
      refine ⟨by ring, by ring, by ring, by ring, rfl, rfl⟩

/-- The other-providers loop in total adds the sums over the
non-hyperscaler contribution list. -/
lemma foldl_nonHyperStep (hypers : List HyperData) (ws : List (String × ℚ))
    (table : List Row) (a : CalcAcc) :
    table.foldl (nonHyperStep hypers ws) a =
      ⟨a.totalS + weSum (nonHyperContribs hypers ws table),
       a.totalW + wSum (nonHyperContribs hypers ws table),
       a.hypS, a.hypW,
       a.nonS + weSum (nonHyperContribs hypers ws table),
       a.nonW + wSum (nonHyperContribs hypers ws table)⟩ := by
  induction table generalizing a with
  | nil => simp [nonHyperContribs, weSum, wSum]
  | cons r rs ih =>
    rw [List.foldl_cons]
    cases hg : nonContribOf hypers ws r with
    | none =>
      rw [nonHyperStep_none hypers ws a r hg, ih]
      simp [nonHyperContribs, List.filterMap_cons, hg]
    | some pr =>
      obtain ⟨w, p⟩ := pr
      rw [nonHyperStep_some hypers ws a r w p hg, ih]
      have hc : nonHyperContribs hypers ws (r :: rs)
          = (w, p) :: nonHyperContribs hypers ws rs := by
        simp [nonHyperContribs, List.filterMap_cons, hg]
      rw [hc, wSum_cons, weSum_cons, CalcAcc.mk.injEq]
      refine ⟨by ring, by ring, rfl, rfl, by ring, by ring⟩

/-- Both loops together: the six accumulators are the sums over the two
contribution lists. -/
lemma runCalc_eq (hypers : List HyperData) (ws : List (String × ℚ))
    (table : List Row) :
    runCalc hypers ws table =
      ⟨weSum (hyperContribs table hypers) + weSum (nonHyperContribs hypers ws table),
       wSum (hyperContribs table hypers) + wSum (nonHyperContribs hypers ws table),
       weSum (hyperContribs table hypers),
       wSum (hyperContribs table hypers),
       weSum (nonHyperContribs hypers ws table),
       wSum (nonHyperContribs hypers ws table)⟩ := by
  unfold runCalc
  rw [foldl_hyperStep, foldl_nonHyperStep]
  simp only [initAcc]
  rw [CalcAcc.mk.injEq]
  refine ⟨by ring, by ring, by ring, by ring, by ring, by ring⟩

/-!  Claim C10: partition identities and the weight blend. -/

/-- Algebra of the weight blend: with positive partition weights, the
pooled mean equals the weight blend of the two partition means and lies
between them. -/
lemma blend_bounds (Sh Wh Sn Wn : ℚ) (hh : 0 < Wh) (hn : 0 < Wn) :
    (Sh + Sn) / (Wh + Wn) = (Wh * (Sh / Wh) + Wn * (Sn / Wn)) / (Wh + Wn)
    ∧ min (Sh / Wh) (Sn / Wn) ≤ (Sh + Sn) / (Wh + Wn)
    ∧ (Sh + Sn) / (Wh + Wn) ≤ max (Sh / Wh) (Sn / Wn) := by
  have hWh : Wh ≠ 0 := ne_of_gt hh
  have hWn : Wn ≠ 0 := ne_of_gt hn
  have hsum : 0 < Wh + Wn := by linarith
  refine ⟨?_, ?_, ?_⟩
  · rw [mul_comm Wh, mul_comm Wn, div_mul_cancel₀ _ hWh, div_mul_cancel₀ _ hWn]
  · rw [le_div_iff₀ hsum]
    have h1 : min (Sh / Wh) (Sn / Wn) * Wh ≤ Sh := by
      calc min (Sh / Wh) (Sn / Wn) * Wh ≤ (Sh / Wh) * Wh :=
            mul_le_mul_of_nonneg_right (min_le_left _ _) hh.le
        _ = Sh := div_mul_cancel₀ _ hWh
    have h2 : min (Sh / Wh) (Sn / Wn) * Wn ≤ Sn := by
      calc min (Sh / Wh) (Sn / Wn) * Wn ≤ (Sn / Wn) * Wn :=
            mul_le_mul_of_nonneg_right (min_le_right _ _) hn.le
        _ = Sn := div_mul_cancel₀ _ hWn
    nlinarith [h1, h2]
  · rw [div_le_iff₀ hsum]
    have h1 : Sh ≤ max (Sh / Wh) (Sn / Wn) * Wh := by
      calc Sh = (Sh / Wh) * Wh := (div_mul_cancel₀ _ hWh).symm
        _ ≤ max (Sh / Wh) (Sn / Wn) * Wh :=
            mul_le_mul_of_nonneg_right (le_max_left _ _) hh.le
    have h2 : Sn ≤ max (Sh / Wh) (Sn / Wn) * Wn := by
      calc Sn = (Sn / Wn) * Wn := (div_mul_cancel₀ _ hWn).symm
        _ ≤ max (Sh / Wh) (Sn / Wn) * Wn :=
            mul_le_mul_of_nonneg_right (le_max_right _ _) hn.le
    nlinarith [h1, h2]

/-- Claim C10: in every aggregation run the total weight is the sum of the
two partition weights and the total weighted sum is the sum of the two
partition sums; with both partition weights positive, the full index is the
weight blend of the two partial indices and lies between them. -/
theorem C10_partition_blend (hypers : List HyperData) (ws : List (String × ℚ))
    (table : List Row) :
    (runCalc hypers ws table).totalW
        = (runCalc hypers ws table).hypW + (runCalc hypers ws table).nonW
    ∧ (runCalc hypers ws table).totalS
        = (runCalc hypers ws table).hypS + (runCalc hypers ws table).nonS
    ∧ (0 < (runCalc hypers ws table).hypW → 0 < (runCalc hypers ws table).nonW →
        (calculate_weighted_index hypers ws table).full
          = ((runCalc hypers ws table).hypW
                * (calculate_weighted_index hypers ws table).hypOnly
              + (runCalc hypers ws table).nonW
                * (calculate_weighted_index hypers ws table).nonOnly)
            / ((runCalc hypers ws table).hypW + (runCalc hypers ws table).nonW)
        ∧ min (calculate_weighted_index hypers ws table).hypOnly
            (calculate_weighted_index hypers ws table).nonOnly
            ≤ (calculate_weighted_index hypers ws table).full
        ∧ (calculate_weighted_index hypers ws table).full
            ≤ max (calculate_weighted_index hypers ws table).hypOnly
                (calculate_weighted_index hypers ws table).nonOnly) := by
  have eqW : (runCalc hypers ws table).totalW
      = (runCalc hypers ws table).hypW + (runCalc hypers ws table).nonW := by
    rw [runCalc_eq]
  have eqS : (runCalc hypers ws table).totalS
      = (runCalc hypers ws table).hypS + (runCalc hypers ws table).nonS := by
    rw [runCalc_eq]
  refine ⟨eqW, eqS, ?_⟩
  intro hh hn
  have hWt : 0 < (runCalc hypers ws table).totalW := by
    rw [eqW]; linarith
  have hb := blend_bounds (runCalc hypers ws table).hypS
    (runCalc hypers ws table).hypW (runCalc hypers ws table).nonS
    (runCalc hypers ws table).nonW hh hn
  dsimp only [calculate_weighted_index]
  rw [if_pos hWt, if_pos hh, if_pos hn, eqS, eqW]
  exact hb

/-- Witness for claim C10 at a concrete input with both partitions
populated. -/
theorem C10_partition_witness :
    min (calculate_weighted_index hypersW wsW tableW).hypOnly
        (calculate_weighted_index hypersW wsW tableW).nonOnly
      ≤ (calculate_weighted_index hypersW wsW tableW).full
    ∧ (calculate_weighted_index hypersW wsW tableW).full
        ≤ max (calculate_weighted_index hypersW wsW tableW).hypOnly
            (calculate_weighted_index hypersW wsW tableW).nonOnly := by
  have h1 : hyperContribs tableW hypersW = [(10, 2)] := by
    simp [hyperContribs, hypersW, tableW, rowGatedChain, findRow, resolveBase,
      effFactor]
    norm_num
  have h2 : nonHyperContribs hypersW wsW tableW = [(10, 2)] := by
    simp [nonHyperContribs, nonContribOf, hypersW, wsW, tableW, isHyper,
      lookupWeight]
  have hh : 0 < (runCalc hypersW wsW tableW).hypW := by
    rw [runCalc_eq]
    show 0 < wSum (hyperContribs tableW hypersW)
    rw [h1]
    norm_num [wSum]
  have hn : 0 < (runCalc hypersW wsW tableW).nonW := by
    rw [runCalc_eq]
    show 0 < wSum (nonHyperContribs hypersW wsW tableW)
    rw [h2]
    norm_num [wSum]
  have h := (C10_partition_blend hypersW wsW tableW).2.2 hh hn
  exact ⟨h.2.1, h.2.2⟩

/-!  Claim C6: the hyperscaler fallback chain. -/

/-- The weight component of the hyperscaler contribution list decomposes
per provider through the row-gated chain. -/
lemma wSum_hyperContribs (table : List Row) (hypers : List HyperData) :
    wSum (hyperContribs table hypers)
      = (hypers.map (fun d => (rowGatedChain table d).elim 0 (fun _ => d.weight))).sum := by
  induction hypers with
  | nil => rfl
  | cons d ds ih =>
    cases hg : rowGatedChain table d with
    | none =>
      have hc : hyperContribs table (d :: ds) = hyperContribs table ds := by
        simp [hyperContribs, List.filterMap_cons, hg]
      rw [List.map_cons, List.sum_cons, hc, ih, hg]
      simp
    | some b =>
      have hc : hyperContribs table (d :: ds)
          = (d.weight, effFactor d * b) :: hyperContribs table ds := by
        simp [hyperContribs, List.filterMap_cons, hg]
      rw [List.map_cons, List.sum_cons, hc, wSum_cons, ih, hg]
      rfl

/-- The weighted-price component of the hyperscaler contribution list
decomposes per provider through the row-gated chain. -/
lemma weSum_hyperContribs (table : List Row) (hypers : List HyperData) :
    weSum (hyperContribs table hypers)
      = (hypers.map (fun d =>
          (rowGatedChain table d).elim 0
            (fun b => d.weight * (effFactor d * b)))).sum := by
  induction hypers with
  | nil => rfl
  | cons d ds ih =>
    cases hg : rowGatedChain table d with
    | none =>
      have hc : hyperContribs table (d :: ds) = hyperContribs table ds := by
        simp [hyperContribs, List.filterMap_cons, hg]
      rw [List.map_cons, List.sum_cons, hc, ih, hg]
      simp
    | some b =>
      have hc : hyperContribs table (d :: ds)
          = (d.weight, effFactor d * b) :: hyperContribs table ds := by
        simp [hyperContribs, List.filterMap_cons, hg]
      rw [List.map_cons, List.sum_cons, hc, weSum_cons, ih, hg]
      rfl

/-- Claim C6 counterexample: with an empty provider table, the Microsoft
Azure entry resolves a price through the claimed fallback chain, namely its
static website price, yet contributes nothing, because the loop at line 179
consults the static prices only when a row for the provider exists. -/
theorem C6_counterexample : ¬ claimC6 := by
  intro h
  have hA : azureEntry ∈ hyperscalers := by
    simp [hyperscalers, azureEntry]
  have h2 := h [] azureEntry hA
  have hchain : claimChainPrice [] azureEntry = some 18.8 := rfl
  rw [hchain] at h2
  have hcontrib : hyperContribution [] azureEntry = (0, 0) := rfl
  rw [hcontrib] at h2
  have h3 : (0 : ℚ) = azureEntry.weight := congrArg Prod.snd h2
  norm_num [azureEntry] at h3

/-- Claim C6 amended: the fallback chain is gated on the provider having a
row in the table; the hyperscaler weight and weighted-price totals of every
run decompose per provider through that row-gated chain, so an entry whose
chain does not resolve, in particular an entry with no row at all, adds
neither weight nor price, and an absent row never consults the static
prices. -/
theorem C6_row_gated_chain (hypers : List HyperData) (ws : List (String × ℚ))
    (table : List Row) :
    (runCalc hypers ws table).hypW
        = (hypers.map (fun d => (rowGatedChain table d).elim 0 (fun _ => d.weight))).sum
    ∧ (runCalc hypers ws table).hypS
        = (hypers.map (fun d =>
            (rowGatedChain table d).elim 0
              (fun b => d.weight * (effFactor d * b)))).sum
    ∧ (∀ d : HyperData, findRow table d.name = none →
        rowGatedChain table d = none)
    ∧ (∀ (d : HyperData) (r : Row), findRow table d.name = some r →
        rowGatedChain table d = resolveBase d r.avgNormalizedPrice) := by
  refine ⟨?_, ?_, ?_, ?_⟩
  · rw [runCalc_eq]
    exact wSum_hyperContribs table hypers
  · rw [runCalc_eq]
    exact weSum_hyperContribs table hypers
  · intro d hf
    unfold rowGatedChain
    rw [hf]
  · intro d r hf
    unfold rowGatedChain
    rw [hf]

/-- Witness for the amended claim C6 at a concrete input. -/
theorem C6_row_gated_witness :
    rowGatedChain [] azureEntry = none
    ∧ (runCalc [azureEntry] [] []).hypW
        = (([azureEntry].map
            (fun d => (rowGatedChain [] d).elim 0 (fun _ => d.weight)))).sum :=
  ⟨(C6_row_gated_chain [azureEntry] [] []).2.2.1 azureEntry rfl,
   (C6_row_gated_chain [azureEntry] [] []).1⟩

/-!  Claim C8: boundedness of the full index. -/

/-- Every non-empty list of rationals has a least and a greatest member. -/
lemma exists_min_max (l : List ℚ) (h : l ≠ []) :
    ∃ lo hi, lo ∈ l ∧ hi ∈ l ∧ ∀ x ∈ l, lo ≤ x ∧ x ≤ hi := by
  induction l with
  | nil => exact absurd rfl h
  | cons a t ih =>
    cases t with
    | nil =>
      refine ⟨a, a, by simp, by simp, ?_⟩
      intro x hx
      simp at hx
      rw [hx]
      exact ⟨le_refl a, le_refl a⟩
    | cons b u =>
      obtain ⟨lo, hi, hlo, hhi, hb⟩ := ih (by simp)
      refine ⟨min a lo, max a hi, ?_, ?_, ?_⟩
      · rcases min_cases a lo with ⟨he, _⟩ | ⟨he, _⟩
        · rw [he]; exact List.mem_cons_self _ _
        · rw [he]; exact List.mem_cons_of_mem _ hlo
      · rcases max_cases a hi with ⟨he, _⟩ | ⟨he, _⟩
        · rw [he]; exact List.mem_cons_self _ _
        · rw [he]; exact List.mem_cons_of_mem _ hhi
      · intro x hx
        rcases List.mem_cons.1 hx with hxa | hxt
        · rw [hxa]
          exact ⟨min_le_left _ _, le_max_left _ _⟩
        · obtain ⟨h1, h2⟩ := hb x hxt
          exact ⟨le_trans (min_le_right _ _) h1, le_trans h2 (le_max_right _ _)⟩

/-- A weighted sum with non-negative weights is bounded by the extreme
prices times the total weight. -/
lemma weSum_bounds (l : List (ℚ × ℚ)) (lo hi : ℚ)
    (hw : ∀ pr ∈ l, 0 ≤ pr.1) (hbd : ∀ pr ∈ l, lo ≤ pr.2 ∧ pr.2 ≤ hi) :
    lo * wSum l ≤ weSum l ∧ weSum l ≤ hi * wSum l := by
  induction l with
  | nil => simp [wSum, weSum]
  | cons pr t ih =>
    obtain ⟨ih1, ih2⟩ := ih (fun q hq => hw q (List.mem_cons_of_mem _ hq))
      (fun q hq => hbd q (List.mem_cons_of_mem _ hq))
    have hw0 : 0 ≤ pr.1 := hw pr (List.mem_cons_self _ _)
    obtain ⟨hb1, hb2⟩ := hbd pr (List.mem_cons_self _ _)
    have hm1 : pr.1 * lo ≤ pr.1 * pr.2 := mul_le_mul_of_nonneg_left hb1 hw0
    have hm2 : pr.1 * pr.2 ≤ pr.1 * hi := mul_le_mul_of_nonneg_left hb2 hw0
    rw [wSum_cons, weSum_cons]
    constructor
    · nlinarith [ih1, hm1]
    · nlinarith [ih2, hm2]

/-- The weight of a hyperscaler contribution is the configured weight of
some hyperscaler entry. -/
lemma hyperContribs_weight (table : List Row) (hypers : List HyperData)
    (pr : ℚ × ℚ) (hpr : pr ∈ hyperContribs table hypers) :
    ∃ d ∈ hypers, pr.1 = d.weight := by
  unfold hyperContribs at hpr
  obtain ⟨d, hd, hmap⟩ := List.mem_filterMap.1 hpr
  cases hg : rowGatedChain table d with
  | none => rw [hg] at hmap; simp at hmap
  | some b =>
    rw [hg] at hmap
    simp at hmap
    exact ⟨d, hd, by rw [← hmap]⟩

/-- The weight of a non-hyperscaler contribution is positive, by the weight
guard of the loop. -/
lemma nonHyperContribs_weight (hypers : List HyperData) (ws : List (String × ℚ))
    (table : List Row) (pr : ℚ × ℚ)
    (hpr : pr ∈ nonHyperContribs hypers ws table) : 0 < pr.1 := by
  unfold nonHyperContribs at hpr
  obtain ⟨r, hr, hmap⟩ := List.mem_filterMap.1 hpr
  unfold nonContribOf at hmap
  cases h1 : isHyper hypers r.provider with
  | true => rw [h1] at hmap; simp at hmap
  | false =>
    rw [h1] at hmap
    simp only [Bool.false_eq_true, if_false] at hmap
    by_cases h2 : 0 < lookupWeight ws r.provider
    · rw [if_pos h2] at hmap
      cases hp : r.avgNormalizedPrice with
      | none => rw [hp] at hmap; simp at hmap
      | some q =>
        rw [hp] at hmap
        simp at hmap
        rw [← hmap]
        exact h2
    · rw [if_neg h2] at hmap; simp at hmap

/-- The total weight of a run is the weight sum of its contribution
list. -/
lemma totalW_eq_wSum (hypers : List HyperData) (ws : List (String × ℚ))
    (table : List Row) :
    (runCalc hypers ws table).totalW = wSum (contribList hypers ws table) := by
  rw [runCalc_eq]
  show wSum (hyperContribs table hypers) + wSum (nonHyperContribs hypers ws table) = _
  unfold contribList
  rw [wSum_append]

/-- The total weighted sum of a run is the weighted-price sum of its
contribution list. -/
lemma totalS_eq_weSum (hypers : List HyperData) (ws : List (String × ℚ))
    (table : List Row) :
    (runCalc hypers ws table).totalS = weSum (contribList hypers ws table) := by
  rw [runCalc_eq]
  show weSum (hyperContribs table hypers) + weSum (nonHyperContribs hypers ws table) = _
  unfold contribList
  rw [weSum_append]

/-- A run with positive total weight has a non-empty contribution list. -/
lemma contrib_nonempty (hypers : List HyperData) (ws : List (String × ℚ))
    (table : List Row) (hpos : 0 < (runCalc hypers ws table).totalW) :
    contribList hypers ws table ≠ [] := by
  intro hemp
  have h3 := hpos
  rw [totalW_eq_wSum, hemp] at h3
  exact absurd h3 (by norm_num [wSum])

/-- Claim C8 counterexample: a single hyperscaler with measured price 10,
weight 50 and a fully discounted buyer base yields a full index of 5, which
is strictly below the least contributing sample price 10; the discount
blend pushes the index outside the sample price range. -/
theorem C8_counterexample : ¬ claimC8 := by
  intro h
  have hps : contribSamplePrices cexHypers [] cexTable = [10] := by
    simp [contribSamplePrices, cexHypers, cexTable, rowGatedChain, findRow,
      resolveBase, isHyper]
  have hfull : (calculate_weighted_index cexHypers [] cexTable).full = 5 := by
    have hA : hyperContribs cexTable cexHypers = [(50, 5)] := by
      simp [hyperContribs, cexHypers, cexTable, rowGatedChain, findRow,
        resolveBase, effFactor]
      norm_num
    have hB : nonHyperContribs cexHypers [] cexTable = [] := by
      simp [nonHyperContribs, nonContribOf, cexHypers, cexTable, isHyper]
    have hrc : runCalc cexHypers [] cexTable = ⟨250, 50, 250, 50, 0, 0⟩ := by
      rw [runCalc_eq, hA, hB, CalcAcc.mk.injEq]
      norm_num [wSum, weSum]
    dsimp only [calculate_weighted_index]
    rw [hrc]
    norm_num
  obtain ⟨lo, hi, hlo, hhi, hb, hl, hh2⟩ :=
    h cexHypers [] cexTable (by norm_num [weightTableSum, cexHypers])
      (by rw [hps]; simp)
  rw [hps] at hlo
  have hlo10 : lo = 10 := List.mem_singleton.1 hlo
  rw [hfull, hlo10] at hl
  linarith

/-- Claim C8 amended: with non-negative configured hyperscaler weights, a
weight table summing to at most 100, and positive total weight used, the
full index lies between the least and the greatest effective contributing
price, where the effective price of a hyperscaler is its resolved base
price scaled by the discount-blend factor and the effective price of a
non-hyperscaler is its measured price. -/
theorem C8_weighted_mean_bounded (hypers : List HyperData)
    (ws : List (String × ℚ)) (table : List Row)
    (hw : ∀ d ∈ hypers, 0 ≤ d.weight)
    (_hsum : weightTableSum hypers ws ≤ 100)
    (hpos : 0 < (runCalc hypers ws table).totalW) :
    ∃ lo hi, lo ∈ (contribList hypers ws table).map (fun pr => pr.2)
      ∧ hi ∈ (contribList hypers ws table).map (fun pr => pr.2)
      ∧ (∀ x ∈ (contribList hypers ws table).map (fun pr => pr.2),
          lo ≤ x ∧ x ≤ hi)
      ∧ lo ≤ (calculate_weighted_index hypers ws table).full
      ∧ (calculate_weighted_index hypers ws table).full ≤ hi := by
  have hne : contribList hypers ws table ≠ [] :=
    contrib_nonempty hypers ws table hpos
  have hne2 : (contribList hypers ws table).map (fun pr => pr.2) ≠ [] := by
    simpa using hne
  obtain ⟨lo, hi, hlo, hhi, hb⟩ := exists_min_max _ hne2
  have hbd : ∀ pr ∈ contribList hypers ws table, lo ≤ pr.2 ∧ pr.2 ≤ hi :=
    fun pr hpr => hb _ (List.mem_map_of_mem _ hpr)
  have hwn : ∀ pr ∈ contribList hypers ws table, 0 ≤ pr.1 := by
    intro pr hpr
    have hpr2 : pr ∈ hyperContribs table hypers
        ++ nonHyperContribs hypers ws table := hpr
    rcases List.mem_append.1 hpr2 with h1 | h1
    · obtain ⟨d, hd, he⟩ := hyperContribs_weight table hypers pr h1
      rw [he]
      exact hw d hd
    · exact (nonHyperContribs_weight hypers ws table pr h1).le
  obtain ⟨hs1, hs2⟩ := weSum_bounds (contribList hypers ws table) lo hi hwn hbd
  have hposW : 0 < wSum (contribList hypers ws table) := by
    rw [← totalW_eq_wSum]
    exact hpos
  refine ⟨lo, hi, hlo, hhi, hb, ?_, ?_⟩
  · dsimp only [calculate_weighted_index]
    rw [if_pos hpos, totalS_eq_weSum, totalW_eq_wSum, le_div_iff₀ hposW]
    exact hs1
  · dsimp only [calculate_weighted_index]
    rw [if_pos hpos, totalS_eq_weSum, totalW_eq_wSum, div_le_iff₀ hposW]
    exact hs2

/-- Witness for the amended claim C8 at a concrete input. -/
theorem C8_bounded_witness :
    ∃ lo hi, lo ∈ (contribList hypersW wsW tableW).map (fun pr => pr.2)
      ∧ hi ∈ (contribList hypersW wsW tableW).map (fun pr => pr.2)
      ∧ (∀ x ∈ (contribList hypersW wsW tableW).map (fun pr => pr.2),
          lo ≤ x ∧ x ≤ hi)
      ∧ lo ≤ (calculate_weighted_index hypersW wsW tableW).full
      ∧ (calculate_weighted_index hypersW wsW tableW).full ≤ hi := by
  apply C8_weighted_mean_bounded
  · intro d hd
    simp [hypersW] at hd
    rw [hd]
    norm_num
  · norm_num [weightTableSum, hypersW, wsW]
  · rw [totalW_eq_wSum]
    have h1 : hyperContribs tableW hypersW = [(10, 2)] := by
      simp [hyperContribs, hypersW, tableW, rowGatedChain, findRow,
        resolveBase, effFactor]
      norm_num
    have h2 : nonHyperContribs hypersW wsW tableW = [(10, 2)] := by
      simp [nonHyperContribs, nonContribOf, hypersW, wsW, tableW, isHyper,
        lookupWeight]
    unfold contribList
    rw [h1, h2]
    norm_num [wSum]

/-!  Claim C5: the outlier filter protects hyperscalers. -/

/-- Dropping rows that can never match the searched provider name does not
change the result of the row search. -/
lemma findRow_filter (l : List Row) (name : String) (p : Row → Bool)
    (h : ∀ r, (r.provider == name) = true → p r = true) :
    findRow (l.filter p) name = findRow l name := by
  unfold findRow
  induction l with
  | nil => rfl
  | cons r t ih =>
    rw [List.filter_cons]
    cases hb : r.provider == name with
    | true =>
      have hp := h r hb
      rw [if_pos hp, List.find?_cons, List.find?_cons]
      simp only [hb]
    | false =>
      cases hpr : p r with
      | true =>
        rw [if_pos rfl, List.find?_cons, List.find?_cons]
        simp only [hb]
        exact ih
      | false =>
        rw [if_neg (by simp), List.find?_cons]
        simp only [hb]
        exact ih

/-- Searching the concatenation searches the first list, then the
second. -/
lemma findRow_append (l1 l2 : List Row) (name : String) :
    findRow (l1 ++ l2) name = (findRow l1 name).or (findRow l2 name) := by
  unfold findRow
  exact List.find?_append

/-- The rows kept by filter_outliers all come from its input. -/
lemma filter_outliers_sub (l : List Row) (m : ℚ) (r : Row)
    (hr : r ∈ (filter_outliers l m).1) : r ∈ l := by
  simp only [filter_outliers] at hr
  split at hr
  · exact hr
  · exact (List.mem_filter.1 hr).1

/-- A member of a hyperscaler list matches the hyperscaler name test on its
own name. -/
lemma isHyper_of_mem (hypers : List HyperData) (d : HyperData)
    (hd : d ∈ hypers) : isHyper hypers d.name = true := by
  unfold isHyper
  exact List.any_eq_true.2 ⟨d, hd, by simp⟩

/-- A row whose provider fails the hyperscaler test never matches the name
of a configured hyperscaler. -/
lemma findRow_nonhyper_none (hypers : List HyperData) (l : List Row)
    (d : HyperData) (hd : d ∈ hypers)
    (hl : ∀ r ∈ l, isHyper hypers r.provider = false) :
    findRow l d.name = none := by
  unfold findRow
  rw [List.find?_eq_none]
  intro r hr hcontra
  have he : r.provider = d.name := eq_of_beq hcontra
  have h1 : isHyper hypers r.provider = true := by
    rw [he]
    exact isHyper_of_mem hypers d hd
  rw [hl r hr] at h1
  exact Bool.false_ne_true h1

/-- For a configured hyperscaler, searching the filtered pipeline table is
the same as searching the hyperscaler rows of the raw table. -/
lemma findRow_pipelineFilter (hypers : List HyperData) (t : List Row)
    (d : HyperData) (hd : d ∈ hypers) :
    findRow (pipelineFilter hypers t) d.name
      = findRow (t.filter (fun r => isHyper hypers r.provider)) d.name := by
  have hname : ∀ r : Row, (r.provider == d.name) = true →
      isHyper hypers r.provider = true := by
    intro r hr
    have he : r.provider = d.name := eq_of_beq hr
    rw [he]
    exact isHyper_of_mem hypers d hd
  simp only [pipelineFilter]
  split
  · exact (findRow_filter t d.name _ hname).symm
  · rw [findRow_append]
    have hnone : findRow (filter_outliers
        (t.filter (fun r => !(isHyper hypers r.provider))) (5/2)).1 d.name
        = none := by
      apply findRow_nonhyper_none hypers _ d hd
      intro r hr
      have hmem := filter_outliers_sub _ _ r hr
      have h2 := (List.mem_filter.1 hmem).2
      simp at h2
      rw [h2]
    rw [hnone, Option.or_none]

/-- The hyperscaler rows of the pipeline-filtered table are exactly the
hyperscaler rows of the raw table: the outlier filter never excludes a
hyperscaler row. -/
lemma pipelineFilter_keeps_hyper (hypers : List HyperData) (t : List Row) :
    (pipelineFilter hypers t).filter (fun r => isHyper hypers r.provider)
      = t.filter (fun r => isHyper hypers r.provider) := by
  simp only [pipelineFilter]
  split
  · rfl
  · rw [List.filter_append]
    have h1 : ((t.filter (fun r => isHyper hypers r.provider)).filter
        (fun r => isHyper hypers r.provider))
        = t.filter (fun r => isHyper hypers r.provider) := by
      rw [List.filter_filter]
      simp
    have h2 : ((filter_outliers
        (t.filter (fun r => !(isHyper hypers r.provider))) (5/2)).1.filter
        (fun r => isHyper hypers r.provider)) = [] := by
      rw [List.filter_eq_nil_iff]
      intro r hr
      have hmem := filter_outliers_sub _ _ r hr
      have h3 := (List.mem_filter.1 hmem).2
      simp at h3
      simp [h3]
    rw [h1, h2, List.append_nil]

/-- Claim C5: outlier filtering runs only over the non-hyperscaler rows
with IQR bounds and multiplier 2.5, and hyperscaler rows are never
excluded; removing a non-hyperscaler row whose price exceeds the upper IQR
bound leaves both the row set of every hyperscaler and the weighted
contribution pair of every configured hyperscaler unchanged. -/
theorem C5_outlier_protects_hyperscalers (hypers : List HyperData)
    (t1 t2 : List Row) (s : Row) (p : ℚ)
    (hs : isHyper hypers s.provider = false)
    (_hp : s.avgNormalizedPrice = some p)
    (_hout : iqrUpperBound (5/2)
        (dropNone (((t1 ++ [s] ++ t2).filter
          (fun r => !(isHyper hypers r.provider))).map
            (fun r => r.avgNormalizedPrice))) < p) :
    (∀ d ∈ hypers,
      hyperContribution (pipelineFilter hypers (t1 ++ [s] ++ t2)) d
        = hyperContribution (pipelineFilter hypers (t1 ++ t2)) d)
    ∧ (pipelineFilter hypers (t1 ++ [s] ++ t2)).filter
        (fun r => isHyper hypers r.provider)
      = (t1 ++ [s] ++ t2).filter (fun r => isHyper hypers r.provider) := by
  have hfilter : (t1 ++ [s] ++ t2).filter (fun r => isHyper hypers r.provider)
      = (t1 ++ t2).filter (fun r => isHyper hypers r.provider) := by
    simp [List.filter_append, hs]
  refine ⟨?_, pipelineFilter_keeps_hyper hypers (t1 ++ [s] ++ t2)⟩
  intro d hd
  unfold hyperContribution
  rw [findRow_pipelineFilter hypers _ d hd, findRow_pipelineFilter hypers _ d hd,
    hfilter]

/-- Witness for claim C5 at a concrete input: removing the extreme Qubrid
row leaves the contribution of the Microsoft Azure entry unchanged. -/
theorem C5_outlier_witness :
    hyperContribution (pipelineFilter hyperscalers (t1W ++ [sW] ++ [])) azureEntry
      = hyperContribution (pipelineFilter hyperscalers (t1W ++ [])) azureEntry := by
  have hqs : isHyper hyperscalers sW.provider = false := by
    simp [isHyper, hyperscalers, sW]
  have hout : iqrUpperBound (5/2)
      (dropNone (((t1W ++ [sW] ++ ([] : List Row)).filter
        (fun r => !(isHyper hyperscalers r.provider))).map
          (fun r => r.avgNormalizedPrice))) < 1000 := by
    have hps : dropNone (((t1W ++ [sW] ++ ([] : List Row)).filter
        (fun r => !(isHyper hyperscalers r.provider))).map
          (fun r => r.avgNormalizedPrice)) = [1, 1, 1, 1, 1000] := by
      simp [t1W, sW, isHyper, hyperscalers, dropNone]
    rw [hps]
    have hsort : sortAsc [1, 1, 1, 1, 1000] = [1, 1, 1, 1, 1000] := by
      norm_num [sortAsc, insertAsc]
    have hq1 : quantileOf [1, 1, 1, 1, 1000] (1/4) = 1 := by
      rw [quantileOf, hsort]
      norm_num [quantileSorted, show Int.toNat 1 = 1 from rfl]
    have hq3 : quantileOf [1, 1, 1, 1, 1000] (3/4) = 1 := by
      rw [quantileOf, hsort]
      norm_num [quantileSorted, show Int.toNat 3 = 3 from rfl]
    rw [iqrUpperBound, hq1, hq3]
    norm_num
  exact (C5_outlier_protects_hyperscalers hyperscalers t1W ([] : List Row) sW 1000
    hqs rfl hout).1 azureEntry (by simp [hyperscalers, azureEntry])

end GpuBot
